import Mathlib

set_option autoImplicit false

/-!
Shallow embedding of `src/Source.cpp` (`Order`, `ConcurrentHashMap`).

The C++ code is a two-level hash map `map_ : symbol → (price → Order)`
guarded by one `std::shared_mutex`; `insert` and `remove` hold the lock in
exclusive mode for their entire body, so every concurrent history of
`insert`/`remove` calls is equivalent to some sequential order of those
calls.  We model the instantiation used by the program
(`ConcurrentHashMap<std::string, int>`): symbols are `String`, prices are
`Int`, and quantities (`lotSize`, a `std::atomic<int>`) are `Int` values
whose arithmetic wraps: `fetch_add` on `std::atomic<int>` is defined to
wrap modulo `2^32` in two's complement, which `wrap32` makes explicit at
the one place the source performs arithmetic.  Each `std::unordered_map` is
modelled as an association list whose operations (`findEntry`, `setEntry`,
`eraseKey`) implement `find`, `operator[]`-assignment and `erase`; the
iteration order of `unordered_map` is unspecified, the list order merely
fixes one enumeration order.
-/

/-- `Order<K, V>` from the source: an atomic `lotSize` and a `price`.
`lotSize` is `std::atomic<int>`; we model its value as an `Int`, with
every arithmetic step (`fetch_add`) reduced into the `int` range by
`wrap32`, so a stored value produced by the program always satisfies
`wrap32 lotSize = lotSize`. -/
structure Order where
  lotSize : Int
  price : Int
  deriving DecidableEq, Repr

/-- The default constructor `Order() : lotSize(0), price(0)`. -/
instance : Inhabited Order := ⟨⟨0, 0⟩⟩

/-- `Order& operator=(Order&& other)`: copies `other.price` and transfers
the atomic value of `other.lotSize`, overwriting both fields of the
target. -/
def Order.moveAssign (tgt src : Order) : Order :=
  { tgt with price := src.price, lotSize := src.lotSize }

/-- Two's-complement reduction of an integer into the range of a 32-bit
`int`, `[-2^31, 2^31)`: the value a `std::atomic<int>` holds after an
arithmetic step whose mathematical result is `x` (`fetch_add` wraps
modulo `2^32`). -/
def wrap32 (x : Int) : Int :=
  (x + 2147483648) % 4294967296 - 2147483648

/-- One `fetch_add` step on an `atomic<int>` holding `a`, adding `b`:
two's-complement wrap-around addition. -/
def wrapAdd (a b : Int) : Int :=
  wrap32 (a + b)

section AssocList

variable {α β : Type} [DecidableEq α]

/-- `unordered_map::find` followed by dereference: the value stored at key
`k`, if any. -/
def findEntry : List (α × β) → α → Option β
  | [], _ => none
  | e :: rest, k => if e.1 = k then some e.2 else findEntry rest k

/-- `m[k] = v`: overwrite the value at key `k`, or append a fresh entry if
`k` is absent. -/
def setEntry : List (α × β) → α → β → List (α × β)
  | [], k, v => [(k, v)]
  | e :: rest, k, v => if e.1 = k then (k, v) :: rest else e :: setEntry rest k v

/-- `m.erase(k)`: drop the entry stored at key `k`, if any. -/
def eraseKey : List (α × β) → α → List (α × β)
  | [], _ => []
  | e :: rest, k => if e.1 = k then rest else e :: eraseKey rest k

end AssocList

/-- The inner map `std::unordered_map<int, Order<K, V>>` (price → cell). -/
abbrev PriceMap := List (Int × Order)

/-- `ConcurrentHashMap<std::string, int>`: the two-level map
`map_ : symbol → price → Order`.  The `shared_mutex` serialises the
structural operations, so the sequential state is just `map_`. -/
structure ConcurrentHashMap where
  map_ : List (String × PriceMap)
  deriving DecidableEq, Repr

/-- The initial, empty book (`map_` default-constructed). -/
def ConcurrentHashMap.empty : ConcurrentHashMap := ⟨[]⟩

/-- `insert(symbol, std::move(order))` from the source: under the exclusive
lock, `map_[symbol]` locates or creates the inner map; if an entry at
`order.price` exists its `lotSize` is `fetch_add`ed — the `atomic<int>`
add wraps modulo `2^32`, hence `wrap32` — otherwise
`orders[order.price] = std::move(order)` default-constructs a cell and
move-assigns `order` into it (a plain copy of the stored `int`, no
arithmetic). -/
def ConcurrentHashMap.insert (m : ConcurrentHashMap) (symbol : String)
    (order : Order) : ConcurrentHashMap :=
  let orders : PriceMap := (findEntry m.map_ symbol).getD []
  let orders' : PriceMap :=
    match findEntry orders order.price with
    | some existing =>
        setEntry orders order.price
          { existing with lotSize := wrap32 (existing.lotSize + order.lotSize) }
    | none =>
        setEntry orders order.price (Order.moveAssign default order)
  ⟨setEntry m.map_ symbol orders'⟩

/-- `remove(symbol)` from the source: under the exclusive lock,
`map_.erase(symbol)`. -/
def ConcurrentHashMap.remove (m : ConcurrentHashMap) (symbol : String) :
    ConcurrentHashMap :=
  ⟨eraseKey m.map_ symbol⟩

/-- `display()` from the source: under the shared lock, walk both levels
and read every cell's `lotSize` atomically; we model the text it prints as
the enumerated data `(symbol, [(price, lotSize), ...])`. -/
def ConcurrentHashMap.display (m : ConcurrentHashMap) :
    List (String × List (Int × Int)) :=
  m.map_.map fun pr => (pr.1, pr.2.map fun e => (e.1, e.2.lotSize))

/-- Lookup of the cell at a `(symbol, price)` pair (the composite of the
two `find`s performed by `insert`). -/
def ConcurrentHashMap.findCell (m : ConcurrentHashMap) (symbol : String)
    (price : Int) : Option Order :=
  (findEntry m.map_ symbol).bind fun orders => findEntry orders price

/-- One public structural operation of the book. -/
inductive BookOp where
  | ins (symbol : String) (lotSize : Int) (price : Int)
  | rem (symbol : String)
  deriving DecidableEq, Repr

/-- Execute one operation (each holds the exclusive lock in the source, so
sequential application models every concurrent history). -/
def applyOp (m : ConcurrentHashMap) : BookOp → ConcurrentHashMap
  | .ins s q p => m.insert s ⟨q, p⟩
  | .rem s => m.remove s

/-- Execute a sequence of operations starting from `m`. -/
def applyOps (m : ConcurrentHashMap) (ops : List BookOp) : ConcurrentHashMap :=
  ops.foldl applyOp m

/-- Insert the quantities `qs`, in order, at one `(symbol, price)` pair,
starting from the empty book. -/
def insertSeq (symbol : String) (price : Int) (qs : List Int) :
    ConcurrentHashMap :=
  qs.foldl (fun m q => m.insert symbol ⟨q, price⟩) ConcurrentHashMap.empty

/-- The quantities the concurrency test's threads insert:
thread `i` (0 ≤ i < n) inserts `i + 1`. -/
def threadQtys (n : Nat) : List Int :=
  (List.range n).map fun (i : Nat) => (i : Int) + 1

/-- Structural well-formedness of the book: symbol keys are unique, each
symbol's price keys are unique, and no symbol is present with an empty
inner map (no empty placeholder). -/
def WF (m : ConcurrentHashMap) : Prop :=
  (m.map_.map Prod.fst).Nodup ∧
  ∀ e ∈ m.map_, (e.2.map Prod.fst).Nodup ∧ e.2 ≠ []

/-- Cell-key consistency: every cell stored under price key `p` records
`price = p` in its own field. -/
def CellKeyConsistent (m : ConcurrentHashMap) : Prop :=
  ∀ e ∈ m.map_, ∀ c ∈ e.2, c.2.price = c.1

/-- Every stored quantity is a genuine 32-bit `int` value (fixed by
`wrap32`) — the typing invariant of the source, where `lotSize` is an
`atomic<int>`. -/
def IntCells (m : ConcurrentHashMap) : Prop :=
  ∀ e ∈ m.map_, ∀ c ∈ e.2, wrap32 c.2.lotSize = c.2.lotSize

/-- An operation whose inserted quantity (if any) is a genuine `int`
value, as the source's typing guarantees. -/
def intOp : BookOp → Prop
  | .ins _ q _ => wrap32 q = q
  | .rem _ => True

example : (ConcurrentHashMap.empty.insert "TEST" ⟨10, 2⟩).map_ =
    [("TEST", [(2, ⟨10, 2⟩)])] := by decide

example :
    ((ConcurrentHashMap.empty.insert "TEST" ⟨10, 2⟩).insert "TEST" ⟨20, 2⟩).map_ =
    [("TEST", [(2, ⟨30, 2⟩)])] := by decide

example :
    (((ConcurrentHashMap.empty.insert "TEST" ⟨10, 2⟩).insert "TEST" ⟨20, 2⟩).insert
      "TEST" ⟨5, 3⟩).map_ =
    [("TEST", [(2, ⟨30, 2⟩), (3, ⟨5, 3⟩)])] := by decide

example :
    ((ConcurrentHashMap.empty.insert "TEST" ⟨10, 2⟩).remove "TEST").map_ = [] := by
  decide

section AssocListLemmas

variable {α β : Type} [DecidableEq α]

theorem findEntry_setEntry_self (l : List (α × β)) (k : α) (v : β) :
    findEntry (setEntry l k v) k = some v := by
  induction l with
  | nil => simp [setEntry, findEntry]
  | cons e rest ih =>
    by_cases h : e.1 = k
    · simp [setEntry, findEntry, h]
    · simp [setEntry, findEntry, h, ih]

theorem findEntry_setEntry_ne (l : List (α × β)) {k k' : α} (v : β)
    (hne : k' ≠ k) : findEntry (setEntry l k v) k' = findEntry l k' := by
  induction l with
  | nil =>
    simp only [setEntry, findEntry]
    rw [if_neg (fun h => hne h.symm)]
  | cons e rest ih =>
    by_cases h : e.1 = k
    · simp only [setEntry, if_pos h, findEntry]
      rw [if_neg (fun hh => hne hh.symm), if_neg (fun hh => hne (h.symm.trans hh).symm)]
    · simp only [setEntry, if_neg h, findEntry]
      by_cases h' : e.1 = k'
      · rw [if_pos h', if_pos h']
      · rw [if_neg h', if_neg h', ih]

theorem findEntry_eq_none_iff (l : List (α × β)) (k : α) :
    findEntry l k = none ↔ k ∉ l.map Prod.fst := by
  induction l with
  | nil => simp [findEntry]
  | cons e rest ih =>
    by_cases h : e.1 = k
    · have hfe : findEntry (e :: rest) k = some e.2 := by
        simp [findEntry, if_pos h]
      rw [hfe, List.map_cons]
      simp [h]
    · have hfe : findEntry (e :: rest) k = findEntry rest k := by
        simp [findEntry, if_neg h]
      rw [hfe, ih, List.map_cons]
      simp only [List.mem_cons, not_or]
      exact ⟨fun hn => ⟨fun hh => h hh.symm, hn⟩, fun hn => hn.2⟩

theorem setEntry_of_absent {l : List (α × β)} {k : α} (v : β)
    (h : findEntry l k = none) : setEntry l k v = l ++ [(k, v)] := by
  induction l with
  | nil => simp [setEntry]
  | cons e rest ih =>
    by_cases he : e.1 = k
    · simp [findEntry, he] at h
    · simp only [findEntry, if_neg he] at h
      simp [setEntry, if_neg he, ih h]

theorem eraseKey_of_absent {l : List (α × β)} {k : α}
    (h : findEntry l k = none) : eraseKey l k = l := by
  induction l with
  | nil => simp [eraseKey]
  | cons e rest ih =>
    by_cases he : e.1 = k
    · simp [findEntry, he] at h
    · simp only [findEntry, if_neg he] at h
      simp [eraseKey, if_neg he, ih h]

theorem mem_setEntry {l : List (α × β)} {k : α} {v : β} {e : α × β}
    (h : e ∈ setEntry l k v) : e = (k, v) ∨ e ∈ l := by
  induction l with
  | nil => simpa [setEntry] using h
  | cons e' rest ih =>
    by_cases he : e'.1 = k
    · simp only [setEntry, if_pos he, List.mem_cons] at h
      rcases h with h | h
      · exact Or.inl h
      · exact Or.inr (List.mem_cons_of_mem _ h)
    · simp only [setEntry, if_neg he, List.mem_cons] at h
      rcases h with h | h
      · exact Or.inr (h ▸ List.mem_cons_self _ _)
      · rcases ih h with h' | h'
        · exact Or.inl h'
        · exact Or.inr (List.mem_cons_of_mem _ h')

theorem mem_setEntry_self (l : List (α × β)) (k : α) (v : β) :
    (k, v) ∈ setEntry l k v := by
  induction l with
  | nil => simp [setEntry]
  | cons e rest ih =>
    by_cases he : e.1 = k
    · simp [setEntry, if_pos he]
    · simp [setEntry, if_neg he, ih]

theorem setEntry_ne_nil (l : List (α × β)) (k : α) (v : β) :
    setEntry l k v ≠ [] := by
  cases l with
  | nil => simp [setEntry]
  | cons e rest =>
    by_cases he : e.1 = k <;> simp [setEntry, he]

theorem nodup_keys_setEntry {l : List (α × β)} (k : α) (v : β)
    (h : (l.map Prod.fst).Nodup) :
    ((setEntry l k v).map Prod.fst).Nodup := by
  induction l with
  | nil => simp [setEntry]
  | cons e rest ih =>
    simp only [List.map_cons, List.nodup_cons] at h
    by_cases he : e.1 = k
    · subst he
      simpa [setEntry, List.nodup_cons] using h
    · simp only [setEntry, if_neg he, List.map_cons, List.nodup_cons]
      refine ⟨?_, ih h.2⟩
      intro hc
      obtain ⟨c, hcmem, hcfst⟩ := List.mem_map.1 hc
      rcases mem_setEntry hcmem with rfl | hcr
      · exact he hcfst.symm
      · exact h.1 (hcfst ▸ List.mem_map_of_mem Prod.fst hcr)

theorem eraseKey_sublist (l : List (α × β)) (k : α) :
    (eraseKey l k).Sublist l := by
  induction l with
  | nil => simp [eraseKey]
  | cons e rest ih =>
    by_cases he : e.1 = k
    · rw [eraseKey, if_pos he]
      exact List.sublist_cons_self e rest
    · rw [eraseKey, if_neg he]
      exact ih.cons₂ e

theorem mem_eraseKey {l : List (α × β)} {k : α} {e : α × β}
    (h : e ∈ eraseKey l k) : e ∈ l :=
  (eraseKey_sublist l k).mem h

theorem nodup_keys_eraseKey {l : List (α × β)} (k : α)
    (h : (l.map Prod.fst).Nodup) :
    ((eraseKey l k).map Prod.fst).Nodup :=
  (((eraseKey_sublist l k).map Prod.fst)).nodup h

theorem findEntry_eraseKey_self {l : List (α × β)} (k : α)
    (h : (l.map Prod.fst).Nodup) : findEntry (eraseKey l k) k = none := by
  induction l with
  | nil => simp [eraseKey, findEntry]
  | cons e rest ih =>
    simp only [List.map_cons, List.nodup_cons] at h
    by_cases he : e.1 = k
    · rw [eraseKey, if_pos he, findEntry_eq_none_iff]
      exact he ▸ h.1
    · rw [eraseKey, if_neg he, findEntry, if_neg he]
      exact ih h.2

theorem findEntry_mem {l : List (α × β)} {k : α} {v : β}
    (h : findEntry l k = some v) : (k, v) ∈ l := by
  induction l with
  | nil => simp [findEntry] at h
  | cons e rest ih =>
    by_cases he : e.1 = k
    · simp only [findEntry, if_pos he, Option.some.injEq] at h
      exact he ▸ h ▸ List.mem_cons_self e rest
    · simp only [findEntry, if_neg he] at h
      exact List.mem_cons_of_mem _ (ih h)

end AssocListLemmas

theorem insert_shape (m : ConcurrentHashMap) (s : String) (order : Order) :
    ∃ cell : Order,
      m.insert s order =
        ConcurrentHashMap.mk (setEntry m.map_ s
          (setEntry ((findEntry m.map_ s).getD []) order.price cell)) := by
  cases hf : findEntry ((findEntry m.map_ s).getD []) order.price with
  | some existing =>
    exact ⟨{ existing with lotSize := wrap32 (existing.lotSize + order.lotSize) },
      by simp [ConcurrentHashMap.insert, hf]⟩
  | none =>
    exact ⟨Order.moveAssign default order, by simp [ConcurrentHashMap.insert, hf]⟩

theorem insert_empty_eq (s : String) (q p : Int) :
    ConcurrentHashMap.empty.insert s ⟨q, p⟩ =
      ConcurrentHashMap.mk [(s, [(p, ⟨q, p⟩)])] := rfl

theorem wrap32_eq_self {x : Int} (h1 : -2147483648 ≤ x)
    (h2 : x < 2147483648) : wrap32 x = x := by
  unfold wrap32
  omega

theorem wrap32_idem (x : Int) : wrap32 (wrap32 x) = wrap32 x := by
  unfold wrap32
  omega

theorem wrap32_add_left (x y : Int) :
    wrap32 (wrap32 x + y) = wrap32 (x + y) := by
  unfold wrap32
  omega

theorem insert_single_eq (s : String) (p a q : Int) :
    (ConcurrentHashMap.mk [(s, [(p, ⟨a, p⟩)])]).insert s ⟨q, p⟩ =
      ConcurrentHashMap.mk [(s, [(p, ⟨wrapAdd a q, p⟩)])] := by
  simp [ConcurrentHashMap.insert, findEntry, setEntry, wrapAdd]

theorem insertSeq_from_single (s : String) (p : Int) (qs : List Int) (a : Int) :
    qs.foldl (fun m q => m.insert s ⟨q, p⟩)
        (ConcurrentHashMap.mk [(s, [(p, ⟨a, p⟩)])]) =
      ConcurrentHashMap.mk [(s, [(p, ⟨qs.foldl wrapAdd a, p⟩)])] := by
  induction qs generalizing a with
  | nil => simp
  | cons q rest ih =>
    rw [List.foldl_cons, insert_single_eq, ih, List.foldl_cons]

theorem insertSeq_eq (s : String) (p q : Int) (rest : List Int) :
    insertSeq s p (q :: rest) =
      ConcurrentHashMap.mk [(s, [(p, ⟨rest.foldl wrapAdd q, p⟩)])] := by
  unfold insertSeq
  rw [List.foldl_cons, insert_empty_eq, insertSeq_from_single]

theorem foldl_wrapAdd_eq (qs : List Int) (a : Int) (ha : wrap32 a = a) :
    qs.foldl wrapAdd a = wrap32 (a + qs.sum) := by
  induction qs generalizing a with
  | nil => rw [List.foldl_nil, List.sum_nil, add_zero, ha]
  | cons q rest ih =>
    rw [List.foldl_cons, ih (wrapAdd a q) (wrap32_idem _), wrapAdd,
      wrap32_add_left, List.sum_cons]
    ring_nf

/-- The net effect of any nonempty insert sequence at one pair, provided
each inserted quantity is a genuine `int` value: one cell holding the
two's-complement 32-bit reduction of the exact sum. -/
theorem insertSeq_wrap_sum (s : String) (p : Int) (qs : List Int)
    (hne : qs ≠ []) (hfix : ∀ x ∈ qs, wrap32 x = x) :
    (insertSeq s p qs).map_ = [(s, [(p, ⟨wrap32 qs.sum, p⟩)])] := by
  cases qs with
  | nil => exact absurd rfl hne
  | cons q rest =>
    rw [insertSeq_eq,
      foldl_wrapAdd_eq rest q (hfix q (List.mem_cons_self q rest)),
      List.sum_cons]

theorem threadQtys_length (n : Nat) : (threadQtys n).length = n := by
  simp [threadQtys]

theorem threadQtys_ne_nil (n : Nat) (hn : 1 ≤ n) : threadQtys n ≠ [] := by
  intro h
  have hl := congrArg List.length h
  rw [threadQtys_length] at hl
  simp at hl
  omega

theorem threadQtys_wrap_fixed (n : Nat) (hn : (n : Int) < 2147483648) :
    ∀ x ∈ threadQtys n, wrap32 x = x := by
  intro x hx
  obtain ⟨i, hi, rfl⟩ := List.mem_map.1 hx
  have hi' : (i : Int) < (n : Int) := by
    exact_mod_cast List.mem_range.1 hi
  have hi0 : (0 : Int) ≤ (i : Int) := Int.ofNat_nonneg i
  exact wrap32_eq_self (by omega) (by omega)

theorem threadQtys_sum_mul_two (n : Nat) :
    (threadQtys n).sum * 2 = (n : Int) * ((n : Int) + 1) := by
  induction n with
  | zero => simp [threadQtys]
  | succ m ih =>
    have hsplit : threadQtys (m + 1) = threadQtys m ++ [(m : Int) + 1] := by
      simp [threadQtys, List.range_succ]
    rw [hsplit, List.sum_append, add_mul, ih]
    simp only [List.sum_cons, List.sum_nil]
    push_cast
    ring

theorem threadQtys_sum (n : Nat) :
    (threadQtys n).sum = (n : Int) * ((n : Int) + 1) / 2 := by
  rw [← threadQtys_sum_mul_two n, Int.mul_ediv_cancel _ (by norm_num)]

/-- C1 counterexample: the claim that the stored quantity is the exact
sum fails on overflow — three inserts of `2^30` at one pair leave the
`int` cell holding `-2^30` (each `fetch_add` wraps modulo `2^32`), not
the exact sum `3 * 2^30`. -/
theorem insert_merge_sum_overflow :
    (insertSeq "TEST" 2 [1073741824, 1073741824, 1073741824]).map_ =
      [("TEST", [(2, ⟨-1073741824, 2⟩)])] ∧
    (-1073741824 : Int) ≠ 1073741824 + 1073741824 + 1073741824 := by
  decide

/-- C1 amended: a sequence of inserts at one `(symbol, price)` pair, with
no intervening remove and each inserted quantity a genuine `int` value,
leaves exactly one cell at that pair — the first insert creates it, every
later insert merge-adds into it — whose quantity is the exact sum of all
inserted quantities reduced to a 32-bit `int` by two's-complement
wrap-around (`wrap32`); in particular it is the exact sum whenever that
sum and every intermediate total fit in `int`. -/
theorem insert_merge_sum (s : String) (p : Int) (qs : List Int)
    (h : qs ≠ []) (hfix : ∀ x ∈ qs, wrap32 x = x) :
    (insertSeq s p qs).map_ = [(s, [(p, ⟨wrap32 qs.sum, p⟩)])] :=
  insertSeq_wrap_sum s p qs h hfix

/-- Witness for `insert_merge_sum`: the spec's own example, quantities 10
then 20 at price 2 give one cell of quantity 30. -/
theorem insert_merge_sum_witness :
    ([10, 20] : List Int) ≠ [] ∧
    (∀ x ∈ ([10, 20] : List Int), wrap32 x = x) ∧
    (insertSeq "TEST" 2 [10, 20]).map_ = [("TEST", [(2, ⟨30, 2⟩)])] :=
  ⟨by decide, by decide,
    insert_merge_sum "TEST" 2 [10, 20] (by decide) (by decide)⟩

/-- C2 counterexample: the claim fails for `n = 65536` already on the
program's own schedule order — the Gauss sum `65536 * 65537 / 2 =
2147516416` exceeds `INT_MAX`, so the `int` cell wraps to `-2147450880`
instead of `n * (n + 1) / 2`. -/
theorem concurrent_insert_sum_overflow :
    (insertSeq "CONCURRENCY_TEST" 2 (threadQtys 65536)).map_ =
      [("CONCURRENCY_TEST", [(2, ⟨-2147450880, 2⟩)])] ∧
    (-2147450880 : Int) ≠ (65536 : Int) * (65536 + 1) / 2 := by
  constructor
  · rw [insertSeq_wrap_sum _ _ _ (threadQtys_ne_nil 65536 (by norm_num))
      (threadQtys_wrap_fixed 65536 (by norm_num)), threadQtys_sum]
    decide
  · decide

/-- C2 amended: the concurrency test's histories: `insert` holds the
exclusive lock for its whole body, so a run of `n` threads each inserting
quantity `i + 1` at the same `(symbol, price)` is some permutation of
those `n` inserts applied sequentially; every permutation yields exactly
one cell — no insert is lost — whose final quantity is the 32-bit
two's-complement reduction of `n * (n + 1) / 2` (`n < 2^31` so each
thread's quantity is an `int`); this equals `n * (n + 1) / 2` exactly
whenever that sum and its intermediate totals fit in `int`, e.g. for the
test's `n = 10`. -/
theorem concurrent_insert_sum (n : Nat) (hn : 1 ≤ n)
    (hn32 : (n : Int) < 2147483648) (qs : List Int)
    (hperm : qs.Perm (threadQtys n)) :
    (insertSeq "CONCURRENCY_TEST" 2 qs).map_ =
      [("CONCURRENCY_TEST",
        [(2, ⟨wrap32 ((n : Int) * ((n : Int) + 1) / 2), 2⟩)])] := by
  have hne : qs ≠ [] := by
    intro h
    have hl := hperm.length_eq
    rw [h, List.length_nil, threadQtys_length] at hl
    omega
  have hfix : ∀ x ∈ qs, wrap32 x = x := fun x hx =>
    threadQtys_wrap_fixed n hn32 x (hperm.mem_iff.1 hx)
  rw [insertSeq_wrap_sum _ _ _ hne hfix, hperm.sum_eq, threadQtys_sum]

/-- Witness for `concurrent_insert_sum`: the test's run, `n = 10`, with
the schedule that commits the threads in reverse order; the final
quantity is 55 (no wrap: 55 fits in `int`). -/
theorem concurrent_insert_sum_witness :
    1 ≤ 10 ∧ ((10 : Nat) : Int) < 2147483648 ∧
    ([10, 9, 8, 7, 6, 5, 4, 3, 2, 1] : List Int).Perm (threadQtys 10) ∧
    (insertSeq "CONCURRENCY_TEST" 2 [10, 9, 8, 7, 6, 5, 4, 3, 2, 1]).map_ =
      [("CONCURRENCY_TEST", [(2, ⟨55, 2⟩)])] :=
  ⟨by decide, by decide, by decide,
    concurrent_insert_sum 10 (by decide) (by decide)
      [10, 9, 8, 7, 6, 5, 4, 3, 2, 1] (by decide)⟩

theorem WF_empty : WF ConcurrentHashMap.empty :=
  ⟨by simp [ConcurrentHashMap.empty], by simp [ConcurrentHashMap.empty]⟩

theorem WF_insert (m : ConcurrentHashMap) (s : String) (order : Order)
    (h : WF m) : WF (m.insert s order) := by
  obtain ⟨h1, h2⟩ := h
  obtain ⟨cell, hshape⟩ := insert_shape m s order
  rw [hshape]
  have hnodup_orders : (((findEntry m.map_ s).getD []).map Prod.fst).Nodup := by
    cases hf : findEntry m.map_ s with
    | none => simp
    | some os =>
      have := h2 (s, os) (findEntry_mem hf)
      simpa using this.1
  constructor
  · exact nodup_keys_setEntry s _ h1
  · intro e he
    rcases mem_setEntry he with rfl | hmem
    · exact ⟨nodup_keys_setEntry _ _ hnodup_orders, setEntry_ne_nil _ _ _⟩
    · exact h2 e hmem

theorem WF_remove (m : ConcurrentHashMap) (s : String) (h : WF m) :
    WF (m.remove s) := by
  obtain ⟨h1, h2⟩ := h
  exact ⟨nodup_keys_eraseKey s h1, fun e he => h2 e (mem_eraseKey he)⟩

theorem WF_applyOps (ops : List BookOp) (m : ConcurrentHashMap) (h : WF m) :
    WF (applyOps m ops) := by
  induction ops generalizing m with
  | nil => exact h
  | cons op rest ih =>
    cases op with
    | ins s q p => exact ih _ (WF_insert m s ⟨q, p⟩ h)
    | rem s => exact ih _ (WF_remove m s h)

/-- C3: after any sequence of `insert` and `remove` operations the book
holds at most one cell per `(symbol, price)` pair: the symbol keys are
unique, each symbol's price keys are unique, no symbol is present as an
empty placeholder, and a symbol just removed by `remove` is absent
entirely. -/
theorem book_invariant (ops : List BookOp) (s : String) :
    WF (applyOps ConcurrentHashMap.empty ops) ∧
    findEntry ((applyOps ConcurrentHashMap.empty ops).remove s).map_ s =
      none := by
  have hwf := WF_applyOps ops ConcurrentHashMap.empty WF_empty
  exact ⟨hwf, findEntry_eraseKey_self s hwf.1⟩

/-- Witness for `book_invariant`: a concrete history mixing merges, a
removal and a re-creation. -/
theorem book_invariant_witness :
    WF (applyOps ConcurrentHashMap.empty
      [.ins "TEST" 10 2, .ins "TEST" 20 2, .rem "TEST", .ins "A" 5 3]) ∧
    findEntry ((applyOps ConcurrentHashMap.empty
      [.ins "TEST" 10 2, .ins "TEST" 20 2, .rem "TEST",
        .ins "A" 5 3]).remove "A").map_ "A" = none :=
  book_invariant
    [.ins "TEST" 10 2, .ins "TEST" 20 2, .rem "TEST", .ins "A" 5 3] "A"

theorem insert_fresh_findCell (m : ConcurrentHashMap) (s : String)
    (q p : Int) (h : findEntry m.map_ s = none) :
    (m.insert s ⟨q, p⟩).findCell s p = some ⟨q, p⟩ := by
  have hins : m.insert s ⟨q, p⟩ =
      ConcurrentHashMap.mk (setEntry m.map_ s [(p, ⟨q, p⟩)]) := by
    simp [ConcurrentHashMap.insert, h, findEntry, setEntry, Order.moveAssign]
  rw [hins]
  simp [ConcurrentHashMap.findCell, findEntry_setEntry_self, findEntry]

/-- C4: `remove(symbol)` erases the symbol's entire inner price mapping:
afterwards the symbol is absent from the map and from the `display`
enumeration, and a subsequent `insert` for it starts from quantity zero
(the fresh cell holds exactly the inserted quantity). -/
theorem remove_erases_symbol (m : ConcurrentHashMap) (s : String)
    (q p : Int) (h : (m.map_.map Prod.fst).Nodup) :
    findEntry (m.remove s).map_ s = none ∧
    s ∉ (m.remove s).display.map Prod.fst ∧
    ((m.remove s).insert s ⟨q, p⟩).findCell s p = some ⟨q, p⟩ := by
  have h1 : findEntry (m.remove s).map_ s = none :=
    findEntry_eraseKey_self s h
  refine ⟨h1, ?_, insert_fresh_findCell _ s q p h1⟩
  have hkeys : (m.remove s).display.map Prod.fst =
      (m.remove s).map_.map Prod.fst := by
    simp [ConcurrentHashMap.display]
  rw [hkeys, ← findEntry_eq_none_iff]
  exact h1

/-- Witness for `remove_erases_symbol`: removing `TEST` from a two-symbol
book, then re-inserting quantity 3 at price 4. -/
theorem remove_erases_symbol_witness :
    ((((ConcurrentHashMap.empty.insert "TEST" ⟨10, 2⟩).insert "KEEP"
      ⟨7, 5⟩).map_.map Prod.fst).Nodup) ∧
    (findEntry (((ConcurrentHashMap.empty.insert "TEST" ⟨10, 2⟩).insert
        "KEEP" ⟨7, 5⟩).remove "TEST").map_ "TEST" = none ∧
      "TEST" ∉ (((ConcurrentHashMap.empty.insert "TEST" ⟨10, 2⟩).insert
        "KEEP" ⟨7, 5⟩).remove "TEST").display.map Prod.fst ∧
      ((((ConcurrentHashMap.empty.insert "TEST" ⟨10, 2⟩).insert "KEEP"
        ⟨7, 5⟩).remove "TEST").insert "TEST" ⟨3, 4⟩).findCell "TEST" 4 =
        some ⟨3, 4⟩) :=
  ⟨by decide, remove_erases_symbol _ "TEST" 3 4 (by decide)⟩

/-- C5: `remove` of a symbol that is absent from the book is a no-op: the
book afterwards is equal to the book before, so no error is raised and no
other symbol's data changes. -/
theorem remove_absent_noop (m : ConcurrentHashMap) (s : String)
    (h : findEntry m.map_ s = none) : m.remove s = m := by
  unfold ConcurrentHashMap.remove
  rw [eraseKey_of_absent h]

/-- Witness for `remove_absent_noop`: removing a never-inserted symbol
from a one-symbol book returns the book unchanged. -/
theorem remove_absent_noop_witness :
    findEntry (ConcurrentHashMap.empty.insert "TEST" ⟨10, 2⟩).map_
      "ABSENT" = none ∧
    (ConcurrentHashMap.empty.insert "TEST" ⟨10, 2⟩).remove "ABSENT" =
      ConcurrentHashMap.empty.insert "TEST" ⟨10, 2⟩ :=
  ⟨by decide, remove_absent_noop _ "ABSENT" (by decide)⟩

/-- C6: inserting at a price not yet present under an existing symbol
appends exactly one new cell to that symbol's inner map and leaves every
pre-existing cell — its price key and its quantity — unchanged. -/
theorem insert_new_price_frame (m : ConcurrentHashMap) (s : String)
    (os : PriceMap) (q p : Int) (hs : findEntry m.map_ s = some os)
    (hp : findEntry os p = none) :
    findEntry (m.insert s ⟨q, p⟩).map_ s = some (os ++ [(p, ⟨q, p⟩)]) := by
  have hins : m.insert s ⟨q, p⟩ =
      ConcurrentHashMap.mk (setEntry m.map_ s (os ++ [(p, ⟨q, p⟩)])) := by
    simp [ConcurrentHashMap.insert, hs, hp, setEntry_of_absent _ hp,
      Order.moveAssign]
  rw [hins]
  exact findEntry_setEntry_self _ _ _

/-- Witness for `insert_new_price_frame`: the spec's example — after
quantities 10 and 20 merge at price 2, inserting quantity 5 at the new
price 3 appends one cell and keeps the `(2, 30)` cell intact. -/
theorem insert_new_price_frame_witness :
    findEntry ((ConcurrentHashMap.empty.insert "TEST" ⟨10, 2⟩).insert
      "TEST" ⟨20, 2⟩).map_ "TEST" = some [(2, ⟨30, 2⟩)] ∧
    findEntry [(2, (⟨30, 2⟩ : Order))] 3 = none ∧
    findEntry (((ConcurrentHashMap.empty.insert "TEST" ⟨10, 2⟩).insert
      "TEST" ⟨20, 2⟩).insert "TEST" ⟨5, 3⟩).map_ "TEST" =
      some [(2, ⟨30, 2⟩), (3, ⟨5, 3⟩)] :=
  ⟨by decide, by decide,
    insert_new_price_frame _ "TEST" [(2, ⟨30, 2⟩)] 5 3 (by decide) (by decide)⟩

/-- C7: an insert into symbol `sA` leaves the entry of any other symbol
`sB` entirely unchanged — `sB`'s presence, its price keys, and all of its
quantities are the same before and after. -/
theorem insert_frame_other_symbol (m : ConcurrentHashMap) (sA sB : String)
    (order : Order) (hne : sA ≠ sB) :
    findEntry (m.insert sA order).map_ sB = findEntry m.map_ sB := by
  obtain ⟨cell, hshape⟩ := insert_shape m sA order
  rw [hshape]
  exact findEntry_setEntry_ne _ _ hne.symm

/-- Witness for `insert_frame_other_symbol`: inserting into `A` leaves
symbol `B`'s inner map untouched. -/
theorem insert_frame_other_symbol_witness :
    "A" ≠ "B" ∧
    findEntry ((ConcurrentHashMap.empty.insert "B" ⟨10, 2⟩).insert "A"
      ⟨5, 3⟩).map_ "B" =
      findEntry (ConcurrentHashMap.empty.insert "B" ⟨10, 2⟩).map_ "B" :=
  ⟨by decide, insert_frame_other_symbol _ "A" "B" ⟨5, 3⟩ (by decide)⟩

/-- C8 counterexample: the claim that a cell's quantity never decreases
is false — `insert` merges quantities of any sign (`lotSize` is a plain
`int` and `fetch_add` accepts negatives), so inserting quantity `-3` at
an existing `(symbol, price)` drops the stored quantity from 5 to 2. -/
theorem merge_add_can_decrease :
    (ConcurrentHashMap.empty.insert "A" ⟨5, 2⟩).findCell "A" 2 =
      some ⟨5, 2⟩ ∧
    ((ConcurrentHashMap.empty.insert "A" ⟨5, 2⟩).insert "A"
      ⟨-3, 2⟩).findCell "A" 2 = some ⟨2, 2⟩ ∧
    ¬ ((5 : Int) ≤ 2) := by decide

/-- C8 amended: whenever the inserted quantity is non-negative and the
resulting total still fits in a 32-bit `int` (no overflow), the merge-add
performed by `insert` at an existing cell leaves the cell's quantity
greater than or equal to its previous value (and equal to the previous
value plus the inserted quantity); with a negative quantity, or when the
total overflows `INT_MAX`, the wrap-around `fetch_add` can decrease it. -/
theorem merge_add_monotone (m : ConcurrentHashMap) (s : String) (q p : Int)
    (cell : Order) (hq : 0 ≤ q)
    (hlo : -2147483648 ≤ cell.lotSize + q)
    (hhi : cell.lotSize + q < 2147483648)
    (hc : m.findCell s p = some cell) :
    (m.insert s ⟨q, p⟩).findCell s p =
      some ⟨cell.lotSize + q, cell.price⟩ ∧
    cell.lotSize ≤ cell.lotSize + q := by
  refine ⟨?_, le_add_of_nonneg_right hq⟩
  cases hf : findEntry m.map_ s with
  | none => rw [ConcurrentHashMap.findCell, hf] at hc; simp at hc
  | some os =>
    rw [ConcurrentHashMap.findCell, hf, Option.some_bind] at hc
    have hins : m.insert s ⟨q, p⟩ =
        ConcurrentHashMap.mk (setEntry m.map_ s
          (setEntry os p ⟨cell.lotSize + q, cell.price⟩)) := by
      simp [ConcurrentHashMap.insert, hf, hc, wrap32_eq_self hlo hhi]
    rw [hins]
    simp [ConcurrentHashMap.findCell, findEntry_setEntry_self]

/-- Witness for `merge_add_monotone`: merging quantity 4 into the cell
`(5, 2)` yields quantity 9 ≥ 5, comfortably inside `int` range. -/
theorem merge_add_monotone_witness :
    (0 : Int) ≤ 4 ∧
    (-2147483648 : Int) ≤ 5 + 4 ∧ (5 + 4 : Int) < 2147483648 ∧
    (ConcurrentHashMap.empty.insert "A" ⟨5, 2⟩).findCell "A" 2 =
      some ⟨5, 2⟩ ∧
    (((ConcurrentHashMap.empty.insert "A" ⟨5, 2⟩).insert "A"
      ⟨4, 2⟩).findCell "A" 2 = some ⟨5 + 4, 2⟩ ∧
      (5 : Int) ≤ 5 + 4) :=
  ⟨by decide, by decide, by decide, by decide,
    merge_add_monotone _ "A" 4 2 ⟨5, 2⟩ (by decide) (by decide) (by decide)
      (by decide)⟩

theorem CK_empty : CellKeyConsistent ConcurrentHashMap.empty := by
  intro e he
  simp [ConcurrentHashMap.empty] at he

theorem CK_insert (m : ConcurrentHashMap) (s : String) (order : Order)
    (h : CellKeyConsistent m) : CellKeyConsistent (m.insert s order) := by
  intro e he c hc
  cases hfs : findEntry m.map_ s with
  | none =>
    have hins : m.insert s order =
        ConcurrentHashMap.mk (setEntry m.map_ s
          (setEntry [] order.price (Order.moveAssign default order))) := by
      simp [ConcurrentHashMap.insert, hfs, findEntry]
    rw [hins] at he
    rcases mem_setEntry he with rfl | hmem
    · rcases mem_setEntry hc with rfl | hcm
      · simp [Order.moveAssign]
      · simp at hcm
    · exact h e hmem c hc
  | some os =>
    cases hfp : findEntry os order.price with
    | none =>
      have hins : m.insert s order =
          ConcurrentHashMap.mk (setEntry m.map_ s
            (setEntry os order.price (Order.moveAssign default order))) := by
        simp [ConcurrentHashMap.insert, hfs, hfp]
      rw [hins] at he
      rcases mem_setEntry he with rfl | hmem
      · rcases mem_setEntry hc with rfl | hcm
        · simp [Order.moveAssign]
        · exact h (s, os) (findEntry_mem hfs) c hcm
      · exact h e hmem c hc
    | some existing =>
      have hpx : existing.price = order.price :=
        h (s, os) (findEntry_mem hfs) (order.price, existing)
          (findEntry_mem hfp)
      have hins : m.insert s order =
          ConcurrentHashMap.mk (setEntry m.map_ s
            (setEntry os order.price
              ⟨wrap32 (existing.lotSize + order.lotSize),
                existing.price⟩)) := by
        simp [ConcurrentHashMap.insert, hfs, hfp]
      rw [hins] at he
      rcases mem_setEntry he with rfl | hmem
      · rcases mem_setEntry hc with rfl | hcm
        · simpa using hpx
        · exact h (s, os) (findEntry_mem hfs) c hcm
      · exact h e hmem c hc

theorem CK_remove (m : ConcurrentHashMap) (s : String)
    (h : CellKeyConsistent m) : CellKeyConsistent (m.remove s) :=
  fun e he c hc => h e (mem_eraseKey he) c hc

theorem CK_applyOps (ops : List BookOp) (m : ConcurrentHashMap)
    (h : CellKeyConsistent m) :
    CellKeyConsistent (applyOps m ops) := by
  induction ops generalizing m with
  | nil => exact h
  | cons op rest ih =>
    cases op with
    | ins s q p => exact ih _ (CK_insert m s ⟨q, p⟩ h)
    | rem s => exact ih _ (CK_remove m s h)

/-- C9: after any sequence of `insert` and `remove` operations, every
cell stored under price key `p` has its own `price` field equal to `p` —
including cells created by move-assignment into a freshly
default-constructed slot, whose `price` is overwritten from the moved
order. -/
theorem cell_key_consistent_ops (ops : List BookOp) :
    CellKeyConsistent (applyOps ConcurrentHashMap.empty ops) :=
  CK_applyOps ops ConcurrentHashMap.empty CK_empty

/-- Witness for `cell_key_consistent_ops`: a concrete history creating,
merging and removing cells. -/
theorem cell_key_consistent_ops_witness :
    CellKeyConsistent (applyOps ConcurrentHashMap.empty
      [.ins "TEST" 10 2, .ins "TEST" 20 2, .ins "TEST" 5 3, .rem "X",
        .ins "A" 7 11]) :=
  cell_key_consistent_ops
    [.ins "TEST" 10 2, .ins "TEST" 20 2, .ins "TEST" 5 3, .rem "X",
      .ins "A" 7 11]

/-- C10: inserting quantity 0 is structural, not a no-op: at an absent
`(symbol, price)` pair it creates the symbol entry (if absent) and a cell
of quantity 0 at that price, and the cell is visible to the `display`
enumeration; at an existing pair it leaves the stored quantity unchanged.
Both cases are captured by `(m.findCell s p).getD ⟨0, p⟩`: the prior cell
if present, the fresh zero cell otherwise.  The hypothesis `hfix` is the
source's typing invariant — the stored quantity is an `atomic<int>`, so
its value is `wrap32`-fixed (`IntCells_applyOps` below shows every book
the program can reach satisfies it, and `fetch_add(0)` on an `int` value
cannot wrap). -/
theorem insert_zero_structural (m : ConcurrentHashMap) (s : String)
    (p : Int)
    (hfix : wrap32 ((m.findCell s p).getD ⟨0, p⟩).lotSize =
      ((m.findCell s p).getD ⟨0, p⟩).lotSize) :
    (m.insert s ⟨0, p⟩).findCell s p =
      some ((m.findCell s p).getD ⟨0, p⟩) ∧
    ∃ e ∈ (m.insert s ⟨0, p⟩).display,
      e.1 = s ∧ (p, ((m.findCell s p).getD ⟨0, p⟩).lotSize) ∈ e.2 := by
  cases hfs : findEntry m.map_ s with
  | none =>
    have hfc : m.findCell s p = none := by
      simp [ConcurrentHashMap.findCell, hfs]
    have hins : m.insert s ⟨0, p⟩ =
        ConcurrentHashMap.mk (setEntry m.map_ s
          (setEntry ([] : PriceMap) p (⟨0, p⟩ : Order))) := by
      simp [ConcurrentHashMap.insert, hfs, findEntry, Order.moveAssign]
    rw [hfc, hins]
    constructor
    · simp [ConcurrentHashMap.findCell, findEntry_setEntry_self]
    · refine ⟨(s, (setEntry ([] : PriceMap) p (⟨0, p⟩ : Order)).map
        fun c => (c.1, c.2.lotSize)), ?_, rfl, ?_⟩
      · exact List.mem_map_of_mem _ (mem_setEntry_self _ _ _)
      · simpa using List.mem_map_of_mem (fun (c : Int × Order) => (c.1, c.2.lotSize))
          (mem_setEntry_self ([] : PriceMap) p (⟨0, p⟩ : Order))
  | some os =>
    cases hfp : findEntry os p with
    | none =>
      have hfc : m.findCell s p = none := by
        simp [ConcurrentHashMap.findCell, hfs, hfp]
      have hins : m.insert s ⟨0, p⟩ =
          ConcurrentHashMap.mk (setEntry m.map_ s
            (setEntry os p (⟨0, p⟩ : Order))) := by
        simp [ConcurrentHashMap.insert, hfs, hfp, Order.moveAssign]
      rw [hfc, hins]
      constructor
      · simp [ConcurrentHashMap.findCell, findEntry_setEntry_self]
      · refine ⟨(s, (setEntry os p (⟨0, p⟩ : Order)).map
          fun c => (c.1, c.2.lotSize)), ?_, rfl, ?_⟩
        · exact List.mem_map_of_mem _ (mem_setEntry_self _ _ _)
        · simpa using List.mem_map_of_mem
            (fun (c : Int × Order) => (c.1, c.2.lotSize))
            (mem_setEntry_self os p (⟨0, p⟩ : Order))
    | some cell =>
      have hfc : m.findCell s p = some cell := by
        simp [ConcurrentHashMap.findCell, hfs, hfp]
      rw [hfc, Option.getD_some] at hfix
      have hins : m.insert s ⟨0, p⟩ =
          ConcurrentHashMap.mk (setEntry m.map_ s
            (setEntry os p (⟨cell.lotSize, cell.price⟩ : Order))) := by
        simp [ConcurrentHashMap.insert, hfs, hfp, hfix]
      rw [hfc, hins]
      constructor
      · simp [ConcurrentHashMap.findCell, findEntry_setEntry_self]
      · refine ⟨(s, (setEntry os p
          (⟨cell.lotSize, cell.price⟩ : Order)).map
          fun c => (c.1, c.2.lotSize)), ?_, rfl, ?_⟩
        · exact List.mem_map_of_mem _ (mem_setEntry_self _ _ _)
        · simpa using List.mem_map_of_mem
            (fun (c : Int × Order) => (c.1, c.2.lotSize))
            (mem_setEntry_self os p
              (⟨cell.lotSize, cell.price⟩ : Order))

/-- Witness for `insert_zero_structural`: inserting quantity 0 at the
absent price 7 of existing symbol `A`. -/
theorem insert_zero_structural_witness :
    wrap32 ((((ConcurrentHashMap.empty.insert "A" ⟨5, 2⟩).findCell "A"
        7).getD ⟨0, 7⟩).lotSize) =
      (((ConcurrentHashMap.empty.insert "A" ⟨5, 2⟩).findCell "A"
        7).getD ⟨0, 7⟩).lotSize ∧
    (((ConcurrentHashMap.empty.insert "A" ⟨5, 2⟩).insert "A"
      ⟨0, 7⟩).findCell "A" 7 =
      some (((ConcurrentHashMap.empty.insert "A" ⟨5, 2⟩).findCell "A"
        7).getD ⟨0, 7⟩) ∧
    ∃ e ∈ ((ConcurrentHashMap.empty.insert "A" ⟨5, 2⟩).insert "A"
      ⟨0, 7⟩).display,
      e.1 = "A" ∧
      (7, (((ConcurrentHashMap.empty.insert "A" ⟨5, 2⟩).findCell "A"
        7).getD ⟨0, 7⟩).lotSize) ∈ e.2) :=
  ⟨by decide,
    insert_zero_structural (ConcurrentHashMap.empty.insert "A" ⟨5, 2⟩) "A" 7
      (by decide)⟩

theorem IntCells_empty : IntCells ConcurrentHashMap.empty := by
  intro e he
  simp [ConcurrentHashMap.empty] at he

theorem IntCells_insert (m : ConcurrentHashMap) (s : String) (order : Order)
    (h : IntCells m) (ho : wrap32 order.lotSize = order.lotSize) :
    IntCells (m.insert s order) := by
  intro e he c hc
  cases hfs : findEntry m.map_ s with
  | none =>
    have hins : m.insert s order =
        ConcurrentHashMap.mk (setEntry m.map_ s
          (setEntry [] order.price (Order.moveAssign default order))) := by
      simp [ConcurrentHashMap.insert, hfs, findEntry]
    rw [hins] at he
    rcases mem_setEntry he with rfl | hmem
    · rcases mem_setEntry hc with rfl | hcm
      · simpa [Order.moveAssign] using ho
      · simp at hcm
    · exact h e hmem c hc
  | some os =>
    cases hfp : findEntry os order.price with
    | none =>
      have hins : m.insert s order =
          ConcurrentHashMap.mk (setEntry m.map_ s
            (setEntry os order.price (Order.moveAssign default order))) := by
        simp [ConcurrentHashMap.insert, hfs, hfp]
      rw [hins] at he
      rcases mem_setEntry he with rfl | hmem
      · rcases mem_setEntry hc with rfl | hcm
        · simpa [Order.moveAssign] using ho
        · exact h (s, os) (findEntry_mem hfs) c hcm
      · exact h e hmem c hc
    | some existing =>
      have hins : m.insert s order =
          ConcurrentHashMap.mk (setEntry m.map_ s
            (setEntry os order.price
              ⟨wrap32 (existing.lotSize + order.lotSize),
                existing.price⟩)) := by
        simp [ConcurrentHashMap.insert, hfs, hfp]
      rw [hins] at he
      rcases mem_setEntry he with rfl | hmem
      · rcases mem_setEntry hc with rfl | hcm
        · simpa using wrap32_idem (existing.lotSize + order.lotSize)
        · exact h (s, os) (findEntry_mem hfs) c hcm
      · exact h e hmem c hc

theorem IntCells_remove (m : ConcurrentHashMap) (s : String)
    (h : IntCells m) : IntCells (m.remove s) :=
  fun e he c hc => h e (mem_eraseKey he) c hc

/-- Every book the program can reach satisfies `IntCells`: starting from
the empty book, any sequence of operations whose inserted quantities are
genuine `int` values (which the source's `int` typing guarantees) leaves
only `wrap32`-fixed quantities in the book. -/
theorem IntCells_applyOps (ops : List BookOp) (m : ConcurrentHashMap)
    (h : IntCells m) (hops : ∀ op ∈ ops, intOp op) :
    IntCells (applyOps m ops) := by
  induction ops generalizing m with
  | nil => exact h
  | cons op rest ih =>
    cases op with
    | ins s q p =>
      exact ih _
        (IntCells_insert m s ⟨q, p⟩ h (hops _ (List.mem_cons_self _ _)))
        (fun o ho => hops o (List.mem_cons_of_mem _ ho))
    | rem s =>
      exact ih _ (IntCells_remove m s h)
        (fun o ho => hops o (List.mem_cons_of_mem _ ho))

/-- Under `IntCells`, any cell returned by `findCell` holds a
`wrap32`-fixed quantity — the form of hypothesis `insert_zero_structural`
takes. -/
theorem IntCells_findCell (m : ConcurrentHashMap) (s : String) (p : Int)
    (cell : Order) (h : IntCells m) (hc : m.findCell s p = some cell) :
    wrap32 cell.lotSize = cell.lotSize := by
  unfold ConcurrentHashMap.findCell at hc
  cases hfs : findEntry m.map_ s with
  | none => rw [hfs] at hc; simp at hc
  | some os =>
    rw [hfs, Option.some_bind] at hc
    exact h (s, os) (findEntry_mem hfs) (p, cell) (findEntry_mem hc)
